import Mathlib

/-!
Verification of the manual PCA pipeline of `notebooks/04_regre_pca.ipynb`,
embedded over exact rational arithmetic.

The notebook computes, for an `n × d` sample matrix `data`:
  mean          = np.mean(data, axis=0)
  data_centered = data - mean
  cov_matrix    = np.cov(data_centered.T)          -- unbiased, n−1 denominator
  eigenvalues, eigenvectors = np.linalg.eig(cov_matrix)
  idx           = np.argsort(eigenvalues)[::-1]
  eigenvalues   = eigenvalues[idx]; eigenvectors = eigenvectors[:, idx]
  pc1           = eigenvectors[:, 0]
  projected     = data_centered @ pc1.reshape(-1, 1)
  projected_2D  = projected @ pc1.reshape(1, -1) + mean

Matrices are embedded as functions `Fin n → Fin d → ℚ`; machine floats are
modelled by exact rationals, so "within floating-point tolerance" becomes
exact equality.  The eigendecomposition is an external library routine and is
modelled abstractly: theorems quantify over its result, assuming only the
properties the routine guarantees (eigen-equation, unit norm, convergence).
-/

namespace PCA

/-- Column-wise mean of an `n × d` sample matrix (`mean = np.mean(data, axis=0)`). -/
def mean {n d : ℕ} (data : Fin n → Fin d → ℚ) : Fin d → ℚ :=
  fun j => (∑ i, data i j) / (n : ℚ)

/-- Centered data (`data_centered = data - mean`, the mean broadcast over rows). -/
def data_centered {n d : ℕ} (data : Fin n → Fin d → ℚ) : Fin n → Fin d → ℚ :=
  fun i j => data i j - mean data j

/-- Matrix transpose (`.T`). -/
def transpose {a b : ℕ} (A : Fin a → Fin b → ℚ) : Fin b → Fin a → ℚ :=
  fun j i => A i j

/-- Embedding of `np.cov(M)` with default `rowvar=True` and `ddof=1`: each row of
`M` is a variable observed over `m` columns; the routine subtracts each row's own
mean internally and divides by `m − 1` (unbiased estimator). -/
def np_cov {d m : ℕ} (M : Fin d → Fin m → ℚ) : Fin d → Fin d → ℚ :=
  fun j k =>
    (∑ s, (M j s - (∑ t, M j t) / (m : ℚ)) * (M k s - (∑ t, M k t) / (m : ℚ))) /
      ((m : ℚ) - 1)

/-- The pipeline's covariance step: `cov_matrix = np.cov(data_centered.T)`. -/
def cov_matrix {n d : ℕ} (data : Fin n → Fin d → ℚ) : Fin d → Fin d → ℚ :=
  np_cov (transpose (data_centered data))

/-- Embedding of `np.argsort(eigenvalues)`: a permutation of the indices
`0, …, d−1` listing positions of `w` in ascending order of value. -/
def argsort {d : ℕ} (w : Fin d → ℚ) : List (Fin d) :=
  List.insertionSort (fun i j => w i ≤ w j) (List.finRange d)

/-- The pipeline's descending index list: `idx = np.argsort(eigenvalues)[::-1]`. -/
def idx {d : ℕ} (w : Fin d → ℚ) : List (Fin d) :=
  (argsort w).reverse

/-- Position `p` of the descending index list, as a `Fin d`. -/
def sortIdx {d : ℕ} (w : Fin d → ℚ) (p : Fin d) : Fin d :=
  (idx w).get ⟨p.val, by simp [idx, argsort, List.length_insertionSort]⟩

/-- The reordered eigenvalues: `eigenvalues = eigenvalues[idx]`. -/
def sorted_eigenvalues {d : ℕ} (w : Fin d → ℚ) : Fin d → ℚ :=
  fun p => w (sortIdx w p)

/-- The reordered eigenvector columns: `eigenvectors = eigenvectors[:, idx]`. -/
def sorted_eigenvectors {d : ℕ} (w : Fin d → ℚ) (V : Fin d → Fin d → ℚ) :
    Fin d → Fin d → ℚ :=
  fun r p => V r (sortIdx w p)

/-- First principal component after sorting: `pc1 = eigenvectors[:, 0]`. -/
def pc1 (w : Fin 2 → ℚ) (V : Fin 2 → Fin 2 → ℚ) : Fin 2 → ℚ :=
  fun r => sorted_eigenvectors w V r 0

/-- The manual pipeline's projection, an `n × 1` matrix:
`projected = np.dot(data_centered, pc1.reshape(-1, 1))`. -/
def projected {n : ℕ} (data : Fin n → Fin 2 → ℚ) (w : Fin 2 → ℚ)
    (V : Fin 2 → Fin 2 → ℚ) : Fin n → Fin 1 → ℚ :=
  fun i _ => ∑ j, data_centered data i j * pc1 w V j

/-- The manual pipeline's reconstruction:
`projected_2D = np.dot(projected, pc1.reshape(1, -1)) + mean`. -/
def projected_2D {n : ℕ} (data : Fin n → Fin 2 → ℚ) (w : Fin 2 → ℚ)
    (V : Fin 2 → Fin 2 → ℚ) : Fin n → Fin 2 → ℚ :=
  fun i j => (∑ p, projected data w V i p * pc1 w V j) + mean data j

/-- Sample variance with the unbiased `n − 1` denominator of a length-`n` vector. -/
def sample_variance {n : ℕ} (x : Fin n → ℚ) : ℚ :=
  (∑ i, (x i - (∑ s, x s) / (n : ℚ)) ^ 2) / ((n : ℚ) - 1)

/-- Modelled from the spec: the error taxonomy of section 7 (`DimensionError`,
`InsufficientSamplesError`, `NumericalError`); the notebook itself defines no
error type. -/
inductive PCAError : Type where
  | DimensionError : PCAError
  | InsufficientSamplesError : PCAError
  | NumericalError : PCAError

/-- Modelled from the spec: the output triple of `fit_transform` — the `n × k`
projection, the retained `d × k` basis and the mean vector. -/
structure PCAOutput (n d k : ℕ) : Type where
  projection : Fin n → Fin k → ℚ
  basis : Fin d → Fin k → ℚ
  mean : Fin d → ℚ

/-- Modelled from the spec: `fit_transform(samples, n_components)` (section 4.1);
the notebook only runs the k = 1 instance inline.  Steps: center, covariance,
eigendecompose, sort descending, select the first `k` eigenvectors, project.
The external eigendecomposition is a parameter `eig`, returning `none` when it
does not converge.  Error checks follow the spec's listing order:
`DimensionError` if `n_components` is outside `[1, d]`, then
`InsufficientSamplesError` if `n < 2`, then `NumericalError` on a
non-convergent eigendecomposition. -/
def fit_transform {n d : ℕ}
    (eig : (Fin d → Fin d → ℚ) → Option ((Fin d → ℚ) × (Fin d → Fin d → ℚ)))
    (data : Fin n → Fin d → ℚ) (k : ℕ) : Except PCAError (PCAOutput n d k) :=
  if hkd : d < k ∨ k < 1 then Except.error PCAError.DimensionError
  else if n < 2 then Except.error PCAError.InsufficientSamplesError
  else
    match eig (cov_matrix data) with
    | none => Except.error PCAError.NumericalError
    | some wV =>
        Except.ok
          { projection := fun i p => ∑ j, data_centered data i j *
              sorted_eigenvectors wV.1 wV.2 j
                (Fin.castLE (Nat.le_of_not_lt fun h => hkd (Or.inl h)) p)
            basis := fun j p => sorted_eigenvectors wV.1 wV.2 j
                (Fin.castLE (Nat.le_of_not_lt fun h => hkd (Or.inl h)) p)
            mean := mean data }

/-- Modelled from the spec: `inverse_transform(projection, basis, mean)` —
projection times basis-transpose plus mean broadcast over rows; the notebook
runs the k = 1 instance inline as `projected_2D`. -/
def inverse_transform {n d k : ℕ} (projection : Fin n → Fin k → ℚ)
    (basis : Fin d → Fin k → ℚ) (mean : Fin d → ℚ) : Fin n → Fin d → ℚ :=
  fun i j => (∑ p, projection i p * basis j p) + mean j

/-- Concrete 2 × 2 sample matrix used by witnesses. -/
def sampleA : Fin 2 → Fin 2 → ℚ := ![![1, 2], ![3, 4]]

/-- Concrete 1 × 2 sample matrix (a single observation) used by witnesses. -/
def sampleB : Fin 1 → Fin 2 → ℚ := ![![5, 7]]

/-- Concrete 2 × 2 sample matrix with covariance matrix `[[2, 0], [0, 0]]`,
used by the projection-variance witness. -/
def sampleC : Fin 2 → Fin 2 → ℚ := ![![0, 0], ![2, 0]]

/-- Concrete 2 × 1 sample matrix used by the round-trip witness. -/
def sampleD : Fin 2 → Fin 1 → ℚ := ![![1], ![3]]

/-- Eigendecomposition oracle that never converges. -/
def eigNone {d : ℕ} :
    (Fin d → Fin d → ℚ) → Option ((Fin d → ℚ) × (Fin d → Fin d → ℚ)) :=
  fun _ => none

/-- Constant eigendecomposition oracle on 1 × 1 matrices, returning eigenvalue 1
with the (orthonormal) basis vector 1. -/
def eigD : (Fin 1 → Fin 1 → ℚ) → Option ((Fin 1 → ℚ) × (Fin 1 → Fin 1 → ℚ)) :=
  fun _ => some (fun _ => 1, fun _ _ => 1)

/-- A second copy of the same oracle, used to state determinism across runs. -/
def eigD2 : (Fin 1 → Fin 1 → ℚ) → Option ((Fin 1 → ℚ) × (Fin 1 → Fin 1 → ℚ)) :=
  fun _ => some (fun _ => 1, fun _ _ => 1)

/-- The output `fit_transform eigD sampleD 1` produces. -/
def outD : PCAOutput 2 1 1 where
  projection := fun i _ => ∑ j, data_centered sampleD i j * 1
  basis := fun _ _ => 1
  mean := mean sampleD

/-- An arbitrary output record, used to state that failures return no result. -/
def outZero : PCAOutput 2 2 3 where
  projection := fun _ _ => 0
  basis := fun _ _ => 0
  mean := fun _ => 0

/-- Each column of the centered data sums to zero (exactly, over ℚ). -/
theorem sum_data_centered_col {n d : ℕ} (data : Fin n → Fin d → ℚ) (j : Fin d) :
    ∑ i, data_centered data i j = 0 := by
  rcases Nat.eq_zero_or_pos n with h0 | hpos
  · subst h0; simp
  · have hn : (n : ℚ) ≠ 0 := Nat.cast_ne_zero.mpr hpos.ne'
    simp only [data_centered, mean]
    rw [Finset.sum_sub_distrib, Finset.sum_const, Finset.card_univ, Fintype.card_fin,
      nsmul_eq_mul]
    field_simp

/-- The internal mean subtraction of `np.cov` vanishes on centered data, so each
entry of the pipeline's covariance matrix is the centered cross-moment sum
divided by `n − 1`. -/
theorem cov_matrix_entry {n d : ℕ} (data : Fin n → Fin d → ℚ) (j k : Fin d) :
    cov_matrix data j k =
      (∑ s, data_centered data s j * data_centered data s k) / ((n : ℚ) - 1) := by
  simp only [cov_matrix, np_cov, transpose]
  rw [sum_data_centered_col data j, sum_data_centered_col data k]
  simp

/-- C4: for every n-by-d sample matrix, the centered matrix produced by
subtracting the per-column mean vector from each row has column-wise mean
`(0, …, 0)` — exactly zero over the exact-arithmetic embedding, which is the
spec's "within floating-point tolerance". -/
theorem centered_mean_zero {n d : ℕ} (data : Fin n → Fin d → ℚ) (j : Fin d) :
    mean (data_centered data) j = 0 := by
  simp [mean, sum_data_centered_col]

/-- C5: the covariance step uses the unbiased estimator: for an n-by-d sample
matrix with n ≥ 2, each entry `cov[i][j]` of `cov_matrix` (computed with
features as the variables, i.e. on the transposed centered matrix) equals the
sum over samples of `centered[s][i] * centered[s][j]` divided by `n − 1`. -/
theorem cov_matrix_unbiased {n d : ℕ} (data : Fin n → Fin d → ℚ) (_h : 2 ≤ n)
    (i j : Fin d) :
    cov_matrix data i j =
      (∑ s, data_centered data s i * data_centered data s j) / ((n : ℚ) - 1) :=
  cov_matrix_entry data i j

/-- Witness for C5 at the concrete sample matrix `sampleA`. -/
theorem cov_matrix_unbiased_witness :
    2 ≤ 2 ∧ cov_matrix sampleA 0 1 =
      (∑ s, data_centered sampleA s 0 * data_centered sampleA s 1) /
        (((2 : ℕ) : ℚ) - 1) :=
  ⟨le_refl 2, cov_matrix_unbiased sampleA (le_refl 2) 0 1⟩

/-- C3: after the sort step (`argsort` of the eigenvalues, reversed), the
returned sequence of eigenvalues `eigenvalues[idx]` is sorted in non-increasing
order, for every real eigenvalue vector `w`. -/
theorem sorted_eigenvalues_nonincreasing {d : ℕ} (w : Fin d → ℚ) :
    List.Sorted (fun a b => b ≤ a) ((idx w).map w) := by
  haveI htot : IsTotal (Fin d) (fun i j => w i ≤ w j) :=
    ⟨fun a b => le_total (w a) (w b)⟩
  haveI htrans : IsTrans (Fin d) (fun i j => w i ≤ w j) :=
    ⟨fun a b c hab hbc => le_trans hab hbc⟩
  have h := List.sorted_insertionSort (fun i j => w i ≤ w j) (List.finRange d)
  rw [idx, List.map_reverse]
  rw [List.Sorted] at h ⊢
  rw [List.pairwise_reverse, List.pairwise_map]
  exact h

/-- C9: centering invariance of the covariance step — because `np.cov` subtracts
per-variable means internally, the covariance matrix of the centered data
equals the covariance matrix of the raw data. -/
theorem cov_centering_invariant {n d : ℕ} (data : Fin n → Fin d → ℚ) (_h : 2 ≤ n)
    (j k : Fin d) :
    np_cov (transpose (data_centered data)) j k = np_cov (transpose data) j k := by
  have hL : np_cov (transpose (data_centered data)) j k
      = (∑ s, data_centered data s j * data_centered data s k) / ((n : ℚ) - 1) :=
    cov_matrix_entry data j k
  rw [hL]
  simp only [np_cov, transpose]
  have hs : ∀ s : Fin n, data_centered data s j * data_centered data s k
      = (data s j - (∑ t, data t j) / (n : ℚ)) *
        (data s k - (∑ t, data t k) / (n : ℚ)) := by
    intro s
    simp [data_centered, mean]
  rw [Finset.sum_congr rfl fun s _ => hs s]

/-- Witness for C9 at the concrete sample matrix `sampleA`. -/
theorem cov_centering_invariant_witness :
    2 ≤ 2 ∧ np_cov (transpose (data_centered sampleA)) 0 0 =
      np_cov (transpose sampleA) 0 0 :=
  ⟨le_refl 2, cov_centering_invariant sampleA (le_refl 2) 0 0⟩

/-- C7: for every n-by-d sample matrix with n ≥ 2, the covariance matrix is
symmetric, and it is positive semi-definite: every quadratic form
`xᵀ · cov_matrix · x` is non-negative. -/
theorem cov_matrix_symm_psd {n d : ℕ} (data : Fin n → Fin d → ℚ) (h : 2 ≤ n) :
    (∀ i j, cov_matrix data i j = cov_matrix data j i) ∧
    (∀ x : Fin d → ℚ, 0 ≤ ∑ i, ∑ j, x i * cov_matrix data i j * x j) := by
  constructor
  · intro i j
    rw [cov_matrix_entry, cov_matrix_entry]
    congr 1
    exact Finset.sum_congr rfl fun s _ => mul_comm _ _
  · intro x
    have h1 : ∀ i j : Fin d, x i * cov_matrix data i j * x j
        = (∑ s, (x i * data_centered data s i) * (x j * data_centered data s j)) /
          ((n : ℚ) - 1) := by
      intro i j
      rw [cov_matrix_entry]
      have hd : x i *
            ((∑ s, data_centered data s i * data_centered data s j) / ((n : ℚ) - 1)) *
            x j
          = (x i * (∑ s, data_centered data s i * data_centered data s j) * x j) /
            ((n : ℚ) - 1) := by
        ring
      rw [hd]
      congr 1
      rw [Finset.mul_sum, Finset.sum_mul]
      exact Finset.sum_congr rfl fun s _ => by ring
    have key : ∑ i, ∑ j, x i * cov_matrix data i j * x j
        = (∑ s, (∑ i, x i * data_centered data s i) ^ 2) / ((n : ℚ) - 1) := by
      simp_rw [h1, ← Finset.sum_div]
      congr 1
      have hswap : ∀ i : Fin d,
          (∑ j, ∑ s, (x i * data_centered data s i) * (x j * data_centered data s j))
          = ∑ s, ∑ j, (x i * data_centered data s i) * (x j * data_centered data s j) :=
        fun i => Finset.sum_comm
      rw [Finset.sum_congr rfl fun i _ => hswap i, Finset.sum_comm]
      exact Finset.sum_congr rfl fun s _ => by rw [sq, Finset.sum_mul_sum]
    rw [key]
    apply div_nonneg
    · exact Finset.sum_nonneg fun s _ => sq_nonneg _
    · have h2 : (2 : ℚ) ≤ (n : ℚ) := by exact_mod_cast h
      linarith

/-- Witness for C7 at the concrete sample matrix `sampleA` and the quadratic
form direction `(1, 1)`. -/
theorem cov_matrix_symm_psd_witness :
    2 ≤ 2 ∧ cov_matrix sampleA 0 1 = cov_matrix sampleA 1 0 ∧
    0 ≤ ∑ i, ∑ j, (1 : ℚ) * cov_matrix sampleA i j * 1 :=
  ⟨le_refl 2, (cov_matrix_symm_psd sampleA (le_refl 2)).1 0 1,
    (cov_matrix_symm_psd sampleA (le_refl 2)).2 (fun _ => 1)⟩

/-- C6: for every sample matrix, the sample variance (n − 1 denominator) of the
projection of the centered data onto a unit-norm eigenvector `v` of the
covariance matrix equals the corresponding eigenvalue `lam`; applied to the
sorted eigenvector columns, the variance along each retained principal axis
equals the corresponding sorted eigenvalue. -/
theorem projection_variance_eq_eigenvalue {n d : ℕ} (data : Fin n → Fin d → ℚ)
    (v : Fin d → ℚ) (lam : ℚ)
    (heig : ∀ i, ∑ j, cov_matrix data i j * v j = lam * v i)
    (hunit : ∑ j, v j ^ 2 = 1) :
    sample_variance (fun i => ∑ j, data_centered data i j * v j) = lam := by
  have hmean : (∑ i, ∑ j, data_centered data i j * v j) = 0 := by
    rw [Finset.sum_comm]
    refine Finset.sum_eq_zero fun j _ => ?_
    rw [← Finset.sum_mul, sum_data_centered_col, zero_mul]
  unfold sample_variance
  rw [hmean, zero_div]
  simp only [sub_zero]
  have hnum : (∑ i, (∑ j, data_centered data i j * v j) ^ 2)
      = ∑ j, ∑ k, (∑ i, data_centered data i j * data_centered data i k) *
          (v j * v k) := by
    have hsq : ∀ i : Fin n, (∑ j, data_centered data i j * v j) ^ 2
        = ∑ j, ∑ k, (data_centered data i j * data_centered data i k) * (v j * v k) := by
      intro i
      rw [sq, Finset.sum_mul_sum]
      exact Finset.sum_congr rfl fun j _ =>
        Finset.sum_congr rfl fun k _ => by ring
    rw [Finset.sum_congr rfl fun i _ => hsq i, Finset.sum_comm]
    refine Finset.sum_congr rfl fun j _ => ?_
    rw [Finset.sum_comm]
    refine Finset.sum_congr rfl fun k _ => ?_
    rw [← Finset.sum_mul]
  rw [hnum]
  have hdiv : (∑ j, ∑ k, (∑ i, data_centered data i j * data_centered data i k) *
        (v j * v k)) / ((n : ℚ) - 1)
      = ∑ j, ∑ k, cov_matrix data j k * (v j * v k) := by
    simp_rw [Finset.sum_div]
    refine Finset.sum_congr rfl fun j _ => Finset.sum_congr rfl fun k _ => ?_
    rw [cov_matrix_entry, div_mul_eq_mul_div]
  rw [hdiv]
  have hrow : ∀ j : Fin d, (∑ k, cov_matrix data j k * (v j * v k))
      = (∑ k, cov_matrix data j k * v k) * v j := by
    intro j
    rw [Finset.sum_mul]
    exact Finset.sum_congr rfl fun k _ => by ring
  rw [Finset.sum_congr rfl fun j _ => hrow j]
  simp_rw [heig]
  have hfin : (∑ j, lam * v j * v j) = lam * ∑ j, v j ^ 2 := by
    rw [Finset.mul_sum]
    exact Finset.sum_congr rfl fun j _ => by ring
  rw [hfin, hunit, mul_one]

/-- Witness for C6: the sample matrix `sampleC` has covariance `[[2, 0], [0, 0]]`,
whose unit eigenvector `(1, 0)` has eigenvalue 2, and the projection onto it has
sample variance 2. -/
theorem projection_variance_eq_eigenvalue_witness :
    sample_variance (fun i => ∑ j, data_centered sampleC i j * ![(1 : ℚ), 0] j) = 2 := by
  refine projection_variance_eq_eigenvalue sampleC ![(1 : ℚ), 0] 2 ?_ ?_
  · intro i
    fin_cases i <;>
      norm_num [cov_matrix_entry, data_centered, mean, sampleC, Fin.sum_univ_two]
  · norm_num [Fin.sum_univ_two]

/-- C10: the manual pipeline retains exactly one component — its projection is
an n × 1 matrix (`projected : Fin n → Fin 1 → ℚ`) — and every row of the
reconstruction `projected_2D` equals `mean + t * pc1` for some scalar `t`: all
reconstructed points lie on the single line through the mean in the direction
of the first principal component. -/
theorem manual_pipeline_line_through_mean {n : ℕ} (data : Fin n → Fin 2 → ℚ)
    (w : Fin 2 → ℚ) (V : Fin 2 → Fin 2 → ℚ) (i : Fin n) :
    ∃ t : ℚ, ∀ j, projected_2D data w V i j = mean data j + t * pc1 w V j := by
  refine ⟨projected data w V i 0, fun j => ?_⟩
  simp only [projected_2D, Fin.sum_univ_one]
  ring

/-- The successful branch of `fit_transform` returns the mean vector and the
projection of the centered data onto the returned basis. -/
theorem fit_transform_ok {n d k : ℕ}
    {eig : (Fin d → Fin d → ℚ) → Option ((Fin d → ℚ) × (Fin d → Fin d → ℚ))}
    {data : Fin n → Fin d → ℚ} {out : PCAOutput n d k}
    (h : fit_transform eig data k = Except.ok out) :
    out.mean = mean data ∧
    ∀ i p, out.projection i p = ∑ j, data_centered data i j * out.basis j p := by
  unfold fit_transform at h
  split at h
  · exact absurd h (by simp)
  · split at h
    · exact absurd h (by simp)
    · split at h
      · exact absurd h (by simp)
      · cases h
        exact ⟨rfl, fun i p => rfl⟩

/-- C1: round-trip law — if the pipeline `fit_transform` is run with
`n_components = d` and succeeds, and the returned eigenvector basis is
orthonormal (as the spec guarantees for the eigendecomposition of a symmetric
matrix), then `inverse_transform` (projection times basis-transpose plus mean)
reconstructs the sample matrix exactly (the exact-arithmetic reading of
"within floating-point tolerance"). -/
theorem roundtrip_reconstruction {n d : ℕ}
    (eig : (Fin d → Fin d → ℚ) → Option ((Fin d → ℚ) × (Fin d → Fin d → ℚ)))
    (data : Fin n → Fin d → ℚ) (out : PCAOutput n d d)
    (hok : fit_transform eig data d = Except.ok out)
    (horth : ∀ j j' : Fin d,
      (∑ p, out.basis j p * out.basis j' p) = if j = j' then (1 : ℚ) else 0)
    (i : Fin n) (j : Fin d) :
    inverse_transform out.projection out.basis out.mean i j = data i j := by
  obtain ⟨hm, hp⟩ := fit_transform_ok hok
  unfold inverse_transform
  rw [hm]
  have h1 : (∑ p, out.projection i p * out.basis j p)
      = ∑ p, ∑ j', (data_centered data i j' * out.basis j' p) * out.basis j p := by
    refine Finset.sum_congr rfl fun p _ => ?_
    rw [hp i p, Finset.sum_mul]
  rw [h1, Finset.sum_comm]
  have h2 : ∀ j' : Fin d,
      (∑ p, (data_centered data i j' * out.basis j' p) * out.basis j p)
      = data_centered data i j' * (if j' = j then (1 : ℚ) else 0) := by
    intro j'
    rw [← horth j' j, Finset.mul_sum]
    exact Finset.sum_congr rfl fun p _ => by ring
  rw [Finset.sum_congr rfl fun j' _ => h2 j']
  simp only [mul_ite, mul_one, mul_zero]
  rw [Finset.sum_ite_eq' Finset.univ j (fun j' => data_centered data i j')]
  simp [data_centered]

/-- Witness for C1: running `fit_transform` with `n_components = d = 1` on the
concrete sample matrix `sampleD` with the convergent oracle `eigD` succeeds
with output `outD`, whose basis is orthonormal, and `inverse_transform`
reconstructs the sample entry exactly. -/
theorem roundtrip_reconstruction_witness :
    fit_transform eigD sampleD 1 = Except.ok outD ∧
    inverse_transform outD.projection outD.basis outD.mean 0 0 = sampleD 0 0 := by
  have hok : fit_transform eigD sampleD 1 = Except.ok outD := rfl
  refine ⟨hok, roundtrip_reconstruction eigD sampleD outD hok ?_ 0 0⟩
  intro j j'
  fin_cases j
  fin_cases j'
  simp [outD, Fin.sum_univ_one]

/-- C2: error conditions of `fit_transform`, in the spec's listing order —
`DimensionError` when `n_components` is above d or below 1;
`InsufficientSamplesError` when (the component count is admissible and) the
sample matrix has fewer than 2 rows; `NumericalError` when (both preconditions
hold and) the eigendecomposition does not converge; and an error outcome never
comes with a partial result. -/
theorem fit_transform_error_conditions {n d : ℕ}
    (eig : (Fin d → Fin d → ℚ) → Option ((Fin d → ℚ) × (Fin d → Fin d → ℚ)))
    (data : Fin n → Fin d → ℚ) :
    (∀ k, d < k ∨ k < 1 →
      fit_transform eig data k = Except.error PCAError.DimensionError) ∧
    (∀ k, 1 ≤ k → k ≤ d → n < 2 →
      fit_transform eig data k = Except.error PCAError.InsufficientSamplesError) ∧
    (∀ k, 1 ≤ k → k ≤ d → 2 ≤ n → eig (cov_matrix data) = none →
      fit_transform eig data k = Except.error PCAError.NumericalError) ∧
    (∀ k (e : PCAError) (out : PCAOutput n d k),
      fit_transform eig data k = Except.error e →
      fit_transform eig data k ≠ Except.ok out) := by
  refine ⟨?_, ?_, ?_, ?_⟩
  · intro k hk
    unfold fit_transform
    rw [dif_pos hk]
  · intro k hk1 hkd hn
    have hnot : ¬(d < k ∨ k < 1) := by omega
    unfold fit_transform
    rw [dif_neg hnot, if_pos hn]
  · intro k hk1 hkd hn heig
    have hnot : ¬(d < k ∨ k < 1) := by omega
    have hn2 : ¬(n < 2) := by omega
    unfold fit_transform
    rw [dif_neg hnot, if_neg hn2, heig]
  · intro k e out he
    rw [he]
    simp

/-- Witness for C2: each error condition observed at a concrete input — a
component count of 3 on 2 features, a single-row sample, a non-convergent
oracle — and a failing run that returns no output record. -/
theorem fit_transform_error_conditions_witness :
    fit_transform eigNone sampleA 3 = Except.error PCAError.DimensionError ∧
    fit_transform eigNone sampleB 1 = Except.error PCAError.InsufficientSamplesError ∧
    fit_transform eigNone sampleA 1 = Except.error PCAError.NumericalError ∧
    fit_transform eigNone sampleA 3 ≠ Except.ok outZero := by
  refine ⟨?_, ?_, ?_, ?_⟩
  · exact (fit_transform_error_conditions eigNone sampleA).1 3 (by omega)
  · exact (fit_transform_error_conditions eigNone sampleB).2.1 1 (by omega) (by omega)
      (by omega)
  · exact (fit_transform_error_conditions eigNone sampleA).2.2.1 1 (by omega) (by omega)
      (by omega) rfl
  · exact (fit_transform_error_conditions eigNone sampleA).2.2.2 3
      PCAError.DimensionError outZero
      ((fit_transform_error_conditions eigNone sampleA).1 3 (by omega))

/-- C8: determinism of the pipeline — two runs of `fit_transform` on the same
input whose eigendecompositions agree on the covariance matrix (in particular,
two runs of a deterministic routine) produce identical projection, basis and
mean outputs. -/
theorem fit_transform_deterministic {n d : ℕ}
    (eig1 eig2 : (Fin d → Fin d → ℚ) → Option ((Fin d → ℚ) × (Fin d → Fin d → ℚ)))
    (data : Fin n → Fin d → ℚ) (k : ℕ)
    (h : eig1 (cov_matrix data) = eig2 (cov_matrix data)) :
    fit_transform eig1 data k = fit_transform eig2 data k := by
  unfold fit_transform
  rw [h]

/-- Witness for C8: two runs with the (deterministic) oracle on `sampleD`
produce the same output. -/
theorem fit_transform_deterministic_witness :
    fit_transform eigD sampleD 1 = fit_transform eigD2 sampleD 1 :=
  fit_transform_deterministic eigD eigD2 sampleD 1 rfl

end PCA
